import Mathlib

/-!
Verification of the fileperson indexing engine and annotation model.

The development shallowly embeds `src/lib.rs`:

* filesystem paths are lists of components (`List String`), mirroring
  `Utf8PathBuf` paths built by joining a parent path with a child name;
* the filesystem visited by the walker is an explicit tree of entries
  (`Entry`), including entries whose enumeration fails, so that the
  error-absorption behaviour of `load_rec` is expressible;
* the Unicode case-folding function supplied by the `caseless` crate is
  abstracted as a parameter `cf : String → String` of every operation that
  the source builds on top of it (`Tag` equality, hashing and ordering, and
  everything derived from them); `asciiFold` is a concrete instance used by
  closed witness statements;
* `HashSet<FileInfo>` is embedded as a list without duplicates modulo the
  derived `FileInfo` equality; `insert` is a no-op when an equal element is
  present, exactly as `std::collections::HashSet::insert`;
* fallible functions return `Except String`.
-/

/-! ## Natural-order comparison of file names

Modelled from the spec: the `natord` crate that supplies
`natord::compare_ignore_case` is a dependency whose source is not part of
this repository.  The spec describes it as natural, case-insensitive
comparison of names in which runs of digits compare by numeric value
rather than lexicographically.  A name is tokenised into digit runs
(tagged `0`, carrying the numeric value) and single non-digit characters
(tagged `1`, carrying the lowercased code point); token lists compare
lexicographically. -/

def digitVal (c : Char) : Nat := c.toNat - 48

/-- Tokeniser for natural-order comparison.  The `Option Nat` accumulator
holds the value of the digit run currently being read. -/
def natKeyAux : Option Nat → List Char → List (Nat × Nat)
  | none, [] => []
  | some n, [] => [(0, n)]
  | none, c :: cs =>
    if c.isDigit then natKeyAux (some (digitVal c)) cs
    else (1, c.toLower.toNat) :: natKeyAux none cs
  | some n, c :: cs =>
    if c.isDigit then natKeyAux (some (10 * n + digitVal c)) cs
    else (0, n) :: (1, c.toLower.toNat) :: natKeyAux none cs

def natKey (s : String) : List (Nat × Nat) := natKeyAux none s.data

/-- Comparison of single tokens: digit runs (`0`) sort before characters
(`1`); within a kind, the payloads compare as numbers. -/
def cmpTok (x y : Nat × Nat) : Ordering :=
  (compare x.1 y.1).then (compare x.2 y.2)

/-- Lexicographic comparison of token lists. -/
def cmpKey : List (Nat × Nat) → List (Nat × Nat) → Ordering
  | [], [] => .eq
  | [], _ :: _ => .lt
  | _ :: _, [] => .gt
  | x :: xs, y :: ys => (cmpTok x y).then (cmpKey xs ys)

/-- Modelled from the spec: `natord::compare_ignore_case`. -/
def natCompareIgnoreCase (a b : String) : Ordering := cmpKey (natKey a) (natKey b)

/-- The non-strict order induced by `natCompareIgnoreCase`; `load_rec`
sorts sibling entries by it. -/
def natLe (a b : String) : Prop := natCompareIgnoreCase a b ≠ Ordering.gt

instance : DecidableRel natLe := fun a b =>
  inferInstanceAs (Decidable (natCompareIgnoreCase a b ≠ Ordering.gt))

theorem cmpTok_lt_iff (x y : Nat × Nat) :
    cmpTok x y = .lt ↔ (x.1 < y.1 ∨ (x.1 = y.1 ∧ x.2 < y.2)) := by
  simp [cmpTok, Ordering.then_eq_lt, compare_lt_iff_lt, compare_eq_iff_eq]

theorem cmpTok_gt_iff (x y : Nat × Nat) :
    cmpTok x y = .gt ↔ (y.1 < x.1 ∨ (x.1 = y.1 ∧ y.2 < x.2)) := by
  simp only [cmpTok, Ordering.then_eq_gt, compare_gt_iff_gt, compare_eq_iff_eq, gt_iff_lt]

theorem cmpTok_eq_iff (x y : Nat × Nat) : cmpTok x y = .eq ↔ x = y := by
  simp [cmpTok, Ordering.then_eq_eq, compare_eq_iff_eq, Prod.ext_iff]

theorem cmpTok_lt_trans {x y z : Nat × Nat} (h1 : cmpTok x y = .lt) (h2 : cmpTok y z = .lt) :
    cmpTok x z = .lt := by
  rw [cmpTok_lt_iff] at h1 h2 ⊢
  omega

theorem cmpKey_eq_iff (x y : List (Nat × Nat)) : cmpKey x y = .eq ↔ x = y := by
  induction x generalizing y with
  | nil => cases y <;> simp [cmpKey]
  | cons a as ih =>
    cases y with
    | nil => simp [cmpKey]
    | cons b bs => simp [cmpKey, Ordering.then_eq_eq, cmpTok_eq_iff, ih]

theorem cmpKey_gt_iff (x y : List (Nat × Nat)) : cmpKey x y = .gt ↔ cmpKey y x = .lt := by
  induction x generalizing y with
  | nil => cases y <;> simp [cmpKey]
  | cons a as ih =>
    cases y with
    | nil => simp [cmpKey]
    | cons b bs =>
      simp only [cmpKey, Ordering.then_eq_gt, Ordering.then_eq_lt]
      constructor
      · rintro (h | ⟨he, hk⟩)
        · left
          rw [cmpTok_gt_iff] at h
          rw [cmpTok_lt_iff]
          omega
        · right
          have hab : a = b := (cmpTok_eq_iff ..).1 he
          subst hab
          exact ⟨(cmpTok_eq_iff ..).2 rfl, (ih bs).1 hk⟩
      · rintro (h | ⟨he, hk⟩)
        · left
          rw [cmpTok_lt_iff] at h
          rw [cmpTok_gt_iff]
          omega
        · right
          have hba : b = a := (cmpTok_eq_iff ..).1 he
          subst hba
          exact ⟨(cmpTok_eq_iff ..).2 rfl, (ih bs).2 hk⟩

theorem cmpKey_lt_trans {x y z : List (Nat × Nat)} :
    cmpKey x y = .lt → cmpKey y z = .lt → cmpKey x z = .lt := by
  induction x generalizing y z with
  | nil =>
    intro h1 h2
    cases z with
    | nil =>
      cases y with
      | nil => simpa [cmpKey] using h1
      | cons b bs => simpa [cmpKey] using h2
    | cons c cs => simp [cmpKey]
  | cons a as ih =>
    intro h1 h2
    cases y with
    | nil => simpa [cmpKey] using h1
    | cons b bs =>
      cases z with
      | nil => simpa [cmpKey] using h2
      | cons c cs =>
        simp only [cmpKey, Ordering.then_eq_lt] at h1 h2 ⊢
        rcases h1 with h1 | ⟨h1e, h1k⟩ <;> rcases h2 with h2 | ⟨h2e, h2k⟩
        · exact Or.inl (cmpTok_lt_trans h1 h2)
        · have hbc : b = c := (cmpTok_eq_iff ..).1 h2e
          subst hbc
          exact Or.inl h1
        · have hab : a = b := (cmpTok_eq_iff ..).1 h1e
          subst hab
          exact Or.inl h2
        · have hab : a = b := (cmpTok_eq_iff ..).1 h1e
          subst hab
          have hbc : a = c := (cmpTok_eq_iff ..).1 h2e
          subst hbc
          exact Or.inr ⟨(cmpTok_eq_iff ..).2 rfl, ih h1k h2k⟩

theorem natLe_total (a b : String) : natLe a b ∨ natLe b a := by
  unfold natLe natCompareIgnoreCase
  by_cases h : cmpKey (natKey a) (natKey b) = .gt
  · right
    rw [cmpKey_gt_iff] at h
    simp [h]
  · exact Or.inl h

theorem natLe_trans {a b c : String} (h1 : natLe a b) (h2 : natLe b c) : natLe a c := by
  unfold natLe natCompareIgnoreCase at h1 h2 ⊢
  rcases hab : cmpKey (natKey a) (natKey b) with _ | _ | _
  · rcases hbc : cmpKey (natKey b) (natKey c) with _ | _ | _
    · rw [cmpKey_lt_trans hab hbc]
      simp
    · rw [← (cmpKey_eq_iff ..).1 hbc, hab]
      simp
    · exact absurd hbc h2
  · rw [(cmpKey_eq_iff ..).1 hab]
    exact h2
  · exact absurd hab h1

/-! ## TagIdentity (`Tag`)

Embedding of `Tag` from `src/lib.rs` lines 27-79.  The Unicode default
case fold supplied by the `caseless` crate is the parameter `cf`;
`default_caseless_match_str` compares the case folds of the two values,
`Hash` feeds the case-folded value to the hasher (abstracted as `h`), and
`Ord` compares the case-folded values lexicographically. -/

structure Tag where
  color : Option String
  value : String

/-- Embeds `Tag::from_str` / `From<&str> for Tag`: color unset, value kept
verbatim. -/
def Tag.fromStr (s : String) : Tag := ⟨none, s⟩

/-- Embeds `PartialEq for Tag`: `caseless::default_caseless_match_str`
holds iff the case folds coincide. -/
def Tag.beq (cf : String → String) (a b : Tag) : Bool := cf a.value == cf b.value

/-- Embeds `Hash for Tag` with the hasher abstracted as a function `h` of
the hashed string. -/
def Tag.hashBy (cf : String → String) (h : String → Nat) (a : Tag) : Nat := h (cf a.value)

/-- Lexicographic three-way comparison of strings, the Lean counterpart of
`str::cmp` on the case-folded values. -/
def strCmp (a b : String) : Ordering :=
  if a < b then .lt else if a = b then .eq else .gt

/-- Embeds `Ord for Tag`: compare the case folds. -/
def Tag.cmp (cf : String → String) (a b : Tag) : Ordering := strCmp (cf a.value) (cf b.value)

theorem strCmp_eq_iff (a b : String) : strCmp a b = .eq ↔ a = b := by
  unfold strCmp
  split_ifs with h1 h2
  · exact ⟨fun h => absurd h (by decide), fun h => absurd h (ne_of_lt h1)⟩
  · simp [h2]
  · exact ⟨fun h => absurd h (by decide), fun h => absurd h h2⟩

/-! ## AnnotationRecord (`FileInfo`)

Embedding of `FileInfo` from `src/lib.rs` lines 87-129.  Paths are lists
of components.  The derived `PartialEq`/`Eq` compares path and deletion
flag structurally and the tag vectors element-wise with `Tag`'s
case-insensitive equality. -/

structure FileInfo where
  path : List String
  delete : Option Bool
  tags : List Tag

/-- Embeds `From<P> for FileInfo`: fresh record for a path. -/
def FileInfo.fromPath (p : List String) : FileInfo := ⟨p, none, []⟩

/-- Embeds `FileInfo::touched`. -/
def FileInfo.touched (f : FileInfo) : Bool := f.delete.isSome || !f.tags.isEmpty

/-- Embeds `FileInfo::set_tags` verbatim: the `tags` argument is never
used; the body only promotes an unset deletion flag to `Some(true)`. -/
def FileInfo.set_tags (f : FileInfo) (tags : List Tag) : FileInfo :=
  if f.delete = none then { f with delete := some true } else f

/-- Embeds `FileInfo::questionable_state`. -/
def FileInfo.questionable_state (f : FileInfo) : Bool :=
  f.delete.getD false && !f.tags.isEmpty

/-- Element-wise equality of tag vectors under `Tag`'s `PartialEq`, as in
the derived `PartialEq` of `Vec<Tag>`. -/
def tagsBeq (cf : String → String) : List Tag → List Tag → Bool
  | [], [] => true
  | a :: as, b :: bs => Tag.beq cf a b && tagsBeq cf as bs
  | _, _ => false

/-- Embeds the derived `PartialEq for FileInfo`: full-tuple equality over
path, deletion flag and tags. -/
def FileInfo.beq (cf : String → String) (a b : FileInfo) : Bool :=
  a.path == b.path && a.delete == b.delete && tagsBeq cf a.tags b.tags

/-- Lowercasing a string character by character; models both
`str::to_lowercase` (on the allow-list and on extensions) and, on ASCII
strings, the Unicode default case fold. -/
def lowerStr (s : String) : String := String.mk (s.data.map Char.toLower)

/-- Concrete case fold used by closed witness statements: ASCII
lowercasing, which agrees with the Unicode default case fold on ASCII
strings. -/
def asciiFold (s : String) : String := lowerStr s

/-- C3: for every `FileInfo` record and every `tags` argument, `set_tags`
leaves the tags list and the path unchanged; its only effect is on the
deletion flag, which it sets to `Some(true)` exactly when it was unset,
and the supplied tags are never stored. -/
theorem set_tags_frame (f : FileInfo) (ts : List Tag) :
    (f.set_tags ts).tags = f.tags ∧
    (f.set_tags ts).path = f.path ∧
    (f.set_tags ts).delete = (if f.delete = none then some true else f.delete) := by
  unfold FileInfo.set_tags
  split_ifs with h <;> simp [h]

/-- C8: `questionable_state` is true iff the deletion flag is `Some(true)`
and the tags list is non-empty. -/
theorem questionable_state_iff (f : FileInfo) :
    f.questionable_state = true ↔ (f.delete = some true ∧ f.tags ≠ []) := by
  unfold FileInfo.questionable_state
  rcases f.delete with _ | b
  · simp [Option.getD]
  · rcases b <;> simp [List.isEmpty_iff]

/-- C6: two tags built by `Tag::from` are equal, hash identically and
compare as `Ordering::Equal` iff the raw strings agree under the case
fold; the color field never influences equality, hashing or ordering; and
the ordering of two tags is the lexicographic comparison of their
case-folded values. -/
theorem tag_identity_spec (cf : String → String) (h : String → Nat) :
    (∀ a b : String,
      (Tag.beq cf (Tag.fromStr a) (Tag.fromStr b) = true ∧
       Tag.hashBy cf h (Tag.fromStr a) = Tag.hashBy cf h (Tag.fromStr b) ∧
       Tag.cmp cf (Tag.fromStr a) (Tag.fromStr b) = .eq) ↔ cf a = cf b) ∧
    (∀ (t u : Tag) (c d : Option String),
      Tag.beq cf { t with color := c } { u with color := d } = Tag.beq cf t u ∧
      Tag.hashBy cf h { t with color := c } = Tag.hashBy cf h t ∧
      Tag.cmp cf { t with color := c } { u with color := d } = Tag.cmp cf t u) ∧
    (∀ t u : Tag, Tag.cmp cf t u = strCmp (cf t.value) (cf u.value)) := by
  refine ⟨fun a b => ?_, fun t u c d => ⟨rfl, rfl, rfl⟩, fun t u => rfl⟩
  constructor
  · rintro ⟨hb, -, -⟩
    exact eq_of_beq hb
  · intro hcf
    refine ⟨beq_iff_eq.2 hcf, congrArg h hcf, ?_⟩
    unfold Tag.cmp Tag.fromStr
    exact (strCmp_eq_iff ..).2 hcf

/-! ## The filesystem model and the walker

`load_rec` (`src/lib.rs` lines 196-259) walks one directory level at a
time: `WalkDir::new(parent).min_depth(1).max_depth(1)` enumerates the
immediate children sorted by `natord::compare_ignore_case` on their file
names, and for each child either recurses (directory), appends a `File`
node to the parent and to the shared `flat` accumulator (file), skips it
with a debug log (neither file nor directory), or logs and skips it when
any per-entry error occurs (walk error, `strip_prefix` error, non-UTF-8
path).

The filesystem itself is an explicit tree: an `Entry` is a file, a
directory with children, something that is neither (`special`), or an
entry whose enumeration fails (`errored`). -/

inductive Entry where
  | file (name : String)
  | dir (name : String) (children : List Entry)
  | special (name : String)
  | errored (name : String)

def Entry.name : Entry → String
  | .file n => n
  | .dir n _ => n
  | .special n => n
  | .errored n => n

/-- Embeds `FsNode` (`src/lib.rs` lines 162-166); the `Directory` payload
`{ this, entries }` is inlined into the constructor. -/
inductive FsNode where
  | File (path : List String)
  | Directory (this : List String) (entries : List FsNode)

/-- Embeds the `Directory` struct (`src/lib.rs` lines 148-152). -/
structure Directory where
  this : List String
  entries : List FsNode

/-- Order on entries used by the walker: `natord::compare_ignore_case` on
the file names, as in the `sort_by` closure of `load_rec`. -/
def entryLe (a b : Entry) : Prop := natLe a.name b.name

instance : DecidableRel entryLe := fun a b => inferInstanceAs (Decidable (natLe a.name b.name))

instance : IsTotal Entry entryLe := ⟨fun a b => natLe_total a.name b.name⟩

instance : IsTrans Entry entryLe := ⟨fun _ _ _ h1 h2 => natLe_trans h1 h2⟩

/-- Sorting applied by `WalkDir::sort_by` to the children of one
directory. -/
def sortChildren (es : List Entry) : List Entry := List.insertionSort entryLe es

mutual
def entrySize : Entry → Nat
  | .file _ => 1
  | .special _ => 1
  | .errored _ => 1
  | .dir _ cs => 1 + sizeListE cs

def sizeListE : List Entry → Nat
  | [] => 0
  | e :: es => entrySize e + sizeListE es
end

theorem sizeListE_perm {l1 l2 : List Entry} (h : l1.Perm l2) : sizeListE l1 = sizeListE l2 := by
  have key : ∀ l : List Entry, sizeListE l = (l.map entrySize).sum := by
    intro l
    induction l with
    | nil => rfl
    | cons e es ih => simp [sizeListE, ih]
  rw [key, key, (h.map entrySize).sum_eq]

theorem sizeListE_sortChildren (es : List Entry) : sizeListE (sortChildren es) = sizeListE es :=
  sizeListE_perm (List.perm_insertionSort _ es)

/-- Characters of a file name after its last dot (the whole name when it
contains no dot), mirroring `name.split(".").last()`, which yields the
final piece of the split. -/
def afterLastDotAux (acc : List Char) : List Char → List Char
  | [] => acc.reverse
  | c :: cs =>
    if c = Char.ofNat 46 then afterLastDotAux [] cs else afterLastDotAux (c :: acc) cs

/-- Embeds the membership test of `load_rec` lines 237-243: the substring
after the last `.` of the file name, lowercased, is looked up in the
allow-list.  In the source the result of this test is discarded — the body
of the check is a commented-out log line — so no caller of `load_rec`
depends on it. -/
def admits (exts : List String) (name : String) : Bool :=
  exts.contains (lowerStr (String.mk (afterLastDotAux [] name.data)))

mutual
/-- Embeds one call of `load_rec`: sort the immediate children of the
parent directory, then process them in order.  Returns the entry list of
the parent node and the file nodes appended to `flat`, in order. -/
def load_rec (path : List String) (exts : List String) (children : List Entry) :
    List FsNode × List FsNode :=
  load_entries path exts (sortChildren children)
termination_by (sizeListE children, 1)
decreasing_by simp [sizeListE_sortChildren, Prod.lex_iff]

/-- Embeds the body of the `for entry in WalkDir...` loop of `load_rec`.
A file is appended to the parent and to `flat` unconditionally (the
extension check computes `admits` but its result is unused in the source);
a directory is recursed into, its flat files precede those of later
siblings; `special` entries hit the `log::debug!("skipping ...")` branch
and `errored` entries the `error!` branch, both leaving no node. -/
def load_entries (path : List String) (exts : List String) :
    List Entry → List FsNode × List FsNode
  | [] => ([], [])
  | .file name :: rest =>
    (FsNode.File (path ++ [name]) :: (load_entries path exts rest).1,
     FsNode.File (path ++ [name]) :: (load_entries path exts rest).2)
  | .dir name cs :: rest =>
    (FsNode.Directory (path ++ [name]) (load_rec (path ++ [name]) exts cs).1 ::
       (load_entries path exts rest).1,
     (load_rec (path ++ [name]) exts cs).2 ++ (load_entries path exts rest).2)
  | .special _ :: rest => load_entries path exts rest
  | .errored _ :: rest => load_entries path exts rest
termination_by es => (sizeListE es, 0)
decreasing_by
  all_goals simp [sizeListE, entrySize, Prod.lex_iff]
  all_goals omega
end

/-- Access to the root of the traversal: either the root directory can be
listed (its immediate children are known) or opening it fails, in which
case `WalkDir` yields a single error entry that `load_rec` logs and
skips. -/
inductive RootAccess where
  | unreadable
  | readable (children : List Entry)

/-- Embeds `load` (`src/lib.rs` lines 260-284): build the root node, clone
it (still empty) as `flat`, lowercase the allow-list, run `load_rec`, and
return `Ok` unconditionally — the function has no failing path. -/
def load (root : List String) (fs : RootAccess) (exts : List String) :
    Except String (Directory × Directory) :=
  match fs with
  | .unreadable => .ok (⟨root, []⟩, ⟨root, []⟩)
  | .readable cs =>
    .ok (⟨root, (load_rec root (exts.map lowerStr) cs).1⟩,
         ⟨root, (load_rec root (exts.map lowerStr) cs).2⟩)

mutual
/-- Pre-order file leaves of a node. -/
def leavesNode : FsNode → List FsNode
  | .File p => [.File p]
  | .Directory _ es => leavesList es

def leavesList : List FsNode → List FsNode
  | [] => []
  | n :: ns => leavesNode n ++ leavesList ns
end

/-- Name of a tree node: the last component of the stored path. -/
def nodeName : FsNode → String
  | .File p => (p.getLast?).getD ""
  | .Directory this _ => (this.getLast?).getD ""

/-- Entries that produce a node in the parent directory: files and
directories (special and errored entries are skipped). -/
def keptEntry : Entry → Bool
  | .file _ => true
  | .dir _ _ => true
  | .special _ => false
  | .errored _ => false

mutual
/-- Sortedness of every directory of a tree: the entry names of the node
itself (when it is a directory) and of every nested directory are pairwise
in `natLe` order. -/
inductive NodeSorted : FsNode → Prop
  | file (p : List String) : NodeSorted (.File p)
  | dir (this : List String) (es : List FsNode) :
      List.Pairwise natLe (es.map nodeName) → EntriesSorted es →
      NodeSorted (.Directory this es)

inductive EntriesSorted : List FsNode → Prop
  | nil : EntriesSorted []
  | cons {n : FsNode} {ns : List FsNode} :
      NodeSorted n → EntriesSorted ns → EntriesSorted (n :: ns)
end

/-! ## AnnotationStore (`State`)

Embedding of `State` (`src/lib.rs` lines 131-136 and 286-323).  The
`HashSet<FileInfo>` is a list whose insert is a no-op when an element
equal to the inserted record (under the derived, full-tuple equality) is
already present — exactly the behaviour of `HashSet::insert`, which keeps
the old element. -/

structure State where
  root : Directory
  flat : Directory
  infos : List FileInfo

/-- Embeds `HashSet::insert` on the `infos` collection. -/
def insertInfo (cf : String → String) (infos : List FileInfo) (f : FileInfo) : List FileInfo :=
  if infos.any (fun g => FileInfo.beq cf g f) then infos else infos ++ [f]

/-- Embeds `State::add`: insert the record and return `Ok(())`. -/
def State.add (cf : String → String) (s : State) (f : FileInfo) : Except String State :=
  .ok { s with infos := insertInfo cf s.infos f }

/-- Embeds `State::new`: run `load` and wrap the pair with an empty record
collection. -/
def State.new (root : List String) (fs : RootAccess) (exts : List String) :
    Except String State :=
  (load root fs exts).map (fun p => ⟨p.1, p.2, []⟩)

/-- Order in which `itertools::sorted` arranges tags inside `State::tags`:
`Tag`'s `Ord`, i.e. the case-folded values compared as strings. -/
def foldLe (cf : String → String) (a b : Tag) : Prop := cf a.value ≤ cf b.value

/-- Strict version of `foldLe`. -/
def foldLt (cf : String → String) (a b : Tag) : Prop := cf a.value < cf b.value

instance (cf : String → String) : DecidableRel (foldLe cf) := fun a b =>
  inferInstanceAs (Decidable (cf a.value ≤ cf b.value))

instance (cf : String → String) : IsTotal Tag (foldLe cf) :=
  ⟨fun a b => le_total (cf a.value) (cf b.value)⟩

instance (cf : String → String) : IsTrans Tag (foldLe cf) :=
  ⟨fun _ _ _ h1 h2 => le_trans h1 h2⟩

instance (cf : String → String) : IsTrans Tag (foldLt cf) :=
  ⟨fun _ _ _ h1 h2 => lt_trans h1 h2⟩

/-- Embeds `itertools::dedup`: drop consecutive elements equal to the
last kept one, keeping the first of each run. -/
def dedupKeepFirst (eq : Tag → Tag → Bool) : List Tag → List Tag
  | [] => []
  | [a] => [a]
  | a :: b :: rest =>
    if eq a b then dedupKeepFirst eq (a :: rest)
    else a :: dedupKeepFirst eq (b :: rest)
termination_by l => l.length

/-- Embeds `State::tags`: concatenate the tag vectors of all records,
sort them by `Tag`'s `Ord` and remove consecutive duplicates. -/
def State.tags (cf : String → String) (s : State) : List Tag :=
  dedupKeepFirst (Tag.beq cf)
    (List.insertionSort (foldLe cf) (s.infos.flatMap (fun f => f.tags)))

/-! ## Flat list versus tree -/

theorem load_entries_flat_leaves :
    ∀ (path exts : List String) (es : List Entry),
    (load_entries path exts es).2 = leavesList (load_entries path exts es).1 := by
  apply load_entries.induct
    (fun path exts cs => (load_rec path exts cs).2 = leavesList (load_rec path exts cs).1)
    (fun path exts es => (load_entries path exts es).2 = leavesList (load_entries path exts es).1)
  · intro path exts children h
    simpa [load_rec] using h
  · intro path exts
    simp [load_entries, leavesList]
  · intro path exts name rest ih
    simp [load_entries, leavesList, leavesNode, ih]
  · intro path exts name cs rest ih1 ih2
    rw [load_rec] at ih1
    simp [load_entries, load_rec, leavesList, leavesNode, ih1, ih2]
  · intro path exts name rest ih
    simpa [load_entries] using ih
  · intro path exts name rest ih
    simpa [load_entries] using ih

theorem load_entries_flat_files :
    ∀ (path exts : List String) (es : List Entry),
    ∀ n ∈ (load_entries path exts es).2, ∃ p, n = FsNode.File p := by
  apply load_entries.induct
    (fun path exts cs => ∀ n ∈ (load_rec path exts cs).2, ∃ p, n = FsNode.File p)
    (fun path exts es => ∀ n ∈ (load_entries path exts es).2, ∃ p, n = FsNode.File p)
  · intro path exts children h
    simpa [load_rec] using h
  · intro path exts
    simp [load_entries]
  · intro path exts name rest ih
    intro n hn
    simp only [load_entries, List.mem_cons] at hn
    rcases hn with rfl | hn
    · exact ⟨_, rfl⟩
    · exact ih n hn
  · intro path exts name cs rest ih1 ih2
    intro n hn
    rw [load_rec] at ih1
    simp only [load_entries, load_rec, List.mem_append] at hn
    rcases hn with hn | hn
    · exact ih1 n hn
    · exact ih2 n hn
  · intro path exts name rest ih
    simpa [load_entries] using ih
  · intro path exts name rest ih
    simpa [load_entries] using ih

/-- C5: for every completed traversal, `flat` contains only `File` nodes
and its entry sequence is exactly the pre-order sequence of `File` leaves
of the returned root tree. -/
theorem flat_is_preorder_file_leaves (rootPath : List String) (fs : RootAccess)
    (exts : List String) (root flat : Directory)
    (h : load rootPath fs exts = .ok (root, flat)) :
    flat.entries = leavesList root.entries ∧
    ∀ n ∈ flat.entries, ∃ p, n = FsNode.File p := by
  cases fs with
  | unreadable =>
    simp only [load, Except.ok.injEq, Prod.mk.injEq] at h
    obtain ⟨hr, hf⟩ := h
    rw [← hr, ← hf]
    exact ⟨rfl, by simp⟩
  | readable cs =>
    simp only [load, Except.ok.injEq, Prod.mk.injEq] at h
    obtain ⟨hr, hf⟩ := h
    rw [← hr, ← hf]
    constructor
    · rw [load_rec]
      exact load_entries_flat_leaves ..
    · intro n hn
      rw [load_rec] at hn
      exact load_entries_flat_files _ _ _ n hn

/-- Witness for C5 at a concrete two-level filesystem. -/
theorem flat_is_preorder_file_leaves_witness :
    (load ["r"] (RootAccess.readable [Entry.dir "d" [Entry.file "x"], Entry.file "y"]) [] =
      .ok (⟨["r"], [FsNode.Directory ["r", "d"] [FsNode.File ["r", "d", "x"]],
                    FsNode.File ["r", "y"]]⟩,
           ⟨["r"], [FsNode.File ["r", "d", "x"], FsNode.File ["r", "y"]]⟩)) ∧
    ((⟨["r"], [FsNode.File ["r", "d", "x"], FsNode.File ["r", "y"]]⟩ : Directory).entries =
      leavesList (⟨["r"], [FsNode.Directory ["r", "d"] [FsNode.File ["r", "d", "x"]],
                           FsNode.File ["r", "y"]]⟩ : Directory).entries ∧
     ∀ n ∈ (⟨["r"], [FsNode.File ["r", "d", "x"], FsNode.File ["r", "y"]]⟩ : Directory).entries,
       ∃ p, n = FsNode.File p) := by
  have h : load ["r"] (RootAccess.readable [Entry.dir "d" [Entry.file "x"], Entry.file "y"]) [] =
      .ok (⟨["r"], [FsNode.Directory ["r", "d"] [FsNode.File ["r", "d", "x"]],
                    FsNode.File ["r", "y"]]⟩,
           ⟨["r"], [FsNode.File ["r", "d", "x"], FsNode.File ["r", "y"]]⟩) := by
    have hs1 : sortChildren [Entry.dir "d" [Entry.file "x"], Entry.file "y"] =
        [Entry.dir "d" [Entry.file "x"], Entry.file "y"] := rfl
    have hs2 : sortChildren [Entry.file "x"] = [Entry.file "x"] := rfl
    simp only [load]
    rw [load_rec, hs1]
    simp only [load_entries]
    rw [load_rec, hs2]
    simp [load_entries]
  exact ⟨h, flat_is_preorder_file_leaves _ _ _ _ _ h⟩

/-- C4 counterexample: a root that cannot be opened does not produce a
terminal error — `load` still returns `Ok` with an empty index, because
the walk error for the root is logged and skipped like any other
per-entry error. -/
theorem load_root_failure_returns_ok :
    load ["r"] RootAccess.unreadable ["mp3"] = .ok (⟨["r"], []⟩, ⟨["r"], []⟩) := rfl

/-- C4 (amended): `load` never returns an error at all — every failure,
including failure to open the root, is logged and skipped; per-entry
errors and special entries are dropped and the traversal of the remaining
entries continues and still returns a `(root, flat)` pair. -/
theorem load_never_fails :
    (∀ (root : List String) (fs : RootAccess) (exts : List String),
      ∃ pair, load root fs exts = .ok pair) ∧
    (∀ (path exts : List String) (n : String) (rest : List Entry),
      load_entries path exts (Entry.errored n :: rest) = load_entries path exts rest) ∧
    (∀ (path exts : List String) (n : String) (rest : List Entry),
      load_entries path exts (Entry.special n :: rest) = load_entries path exts rest) := by
  refine ⟨fun root fs exts => ?_, fun path exts n rest => ?_, fun path exts n rest => ?_⟩
  · cases fs with
    | unreadable => exact ⟨_, rfl⟩
    | readable cs => exact ⟨_, rfl⟩
  · rw [load_entries]
  · rw [load_entries]

/-- C1: the extension allow-list is computed but never applied — a file
whose extension is not in the allow-list is still appended to both its
parent directory and to `flat`.  With allow-list `{"mp3"}`, the file
`a.txt` is not admitted, yet `load` indexes it in both trees. -/
theorem rejected_file_still_indexed :
    admits ["mp3"] "a.txt" = false ∧
    load ["r"] (RootAccess.readable [Entry.file "a.txt"]) ["mp3"] =
      .ok (⟨["r"], [FsNode.File ["r", "a.txt"]]⟩, ⟨["r"], [FsNode.File ["r", "a.txt"]]⟩) := by
  refine ⟨by decide, ?_⟩
  have hs : sortChildren [Entry.file "a.txt"] = [Entry.file "a.txt"] := rfl
  simp only [load]
  rw [load_rec, hs]
  simp [load_entries]

/-- C10: `State::add` always returns `Ok` and modifies only the `infos`
collection, leaving `root` and `flat` unchanged. -/
theorem add_always_ok_and_frames_index (cf : String → String) (s : State) (f : FileInfo) :
    ∃ s2, State.add cf s f = .ok s2 ∧ s2.root = s.root ∧ s2.flat = s.flat ∧
      s2.infos = insertInfo cf s.infos f :=
  ⟨_, rfl, rfl, rfl, rfl⟩

/-! ## Sibling ordering -/

theorem sortChildren_sorted (es : List Entry) : List.Sorted entryLe (sortChildren es) :=
  List.sorted_insertionSort entryLe es

theorem load_entries_map_name (path exts : List String) (es : List Entry) :
    (load_entries path exts es).1.map nodeName = (es.filter keptEntry).map Entry.name := by
  induction es with
  | nil => simp [load_entries]
  | cons e rest ih =>
    cases e with
    | file name =>
      simp [load_entries, keptEntry, nodeName, Entry.name, ih, List.getLast?_concat]
    | dir name cs =>
      simp [load_entries, keptEntry, nodeName, Entry.name, ih, List.getLast?_concat]
    | special name => simp [load_entries, keptEntry, ih]
    | errored name => simp [load_entries, keptEntry, ih]

theorem load_entries_names_pairwise (path exts : List String) {es : List Entry}
    (hs : List.Sorted entryLe es) :
    List.Pairwise natLe ((load_entries path exts es).1.map nodeName) := by
  rw [load_entries_map_name]
  exact List.Pairwise.map Entry.name (fun a b hab => hab) (hs.filter keptEntry)

theorem load_rec_tree_sorted :
    ∀ (path exts : List String) (cs : List Entry),
    NodeSorted (FsNode.Directory path (load_rec path exts cs).1) := by
  apply load_rec.induct
    (fun path exts cs => NodeSorted (FsNode.Directory path (load_rec path exts cs).1))
    (fun path exts es => EntriesSorted (load_entries path exts es).1)
  · intro path exts children h
    rw [load_rec]
    exact NodeSorted.dir _ _ (load_entries_names_pairwise _ _ (sortChildren_sorted children)) h
  · intro path exts
    simp only [load_entries]
    exact EntriesSorted.nil
  · intro path exts name rest ih
    simp only [load_entries]
    exact EntriesSorted.cons (NodeSorted.file _) ih
  · intro path exts name cs rest ih1 ih2
    simp only [load_entries]
    exact EntriesSorted.cons ih1 ih2
  · intro path exts name rest ih
    simpa only [load_entries] using ih
  · intro path exts name rest ih
    simpa only [load_entries] using ih

/-- C7: every directory produced by the traversal — the root and every
nested directory — has its entries sorted by natural, case-insensitive
comparison of entry names; in particular files `img2.png`, `img10.png`,
`Img1.png` come out in the order `Img1.png`, `img2.png`, `img10.png`. -/
theorem directory_entries_natural_sorted :
    (∀ (rootPath : List String) (fs : RootAccess) (exts : List String) (root flat : Directory),
      load rootPath fs exts = .ok (root, flat) →
      NodeSorted (FsNode.Directory root.this root.entries)) ∧
    (load ["r"] (RootAccess.readable
        [Entry.file "img2.png", Entry.file "img10.png", Entry.file "Img1.png"]) ["png"]).map
        (fun p => p.1.entries) =
      .ok [FsNode.File ["r", "Img1.png"], FsNode.File ["r", "img2.png"],
           FsNode.File ["r", "img10.png"]] := by
  constructor
  · intro rootPath fs exts root flat h
    cases fs with
    | unreadable =>
      simp only [load, Except.ok.injEq, Prod.mk.injEq] at h
      obtain ⟨hr, -⟩ := h
      rw [← hr]
      exact NodeSorted.dir _ _ (by simp) EntriesSorted.nil
    | readable cs =>
      simp only [load, Except.ok.injEq, Prod.mk.injEq] at h
      obtain ⟨hr, -⟩ := h
      rw [← hr]
      exact load_rec_tree_sorted ..
  · have hs : sortChildren
        [Entry.file "img2.png", Entry.file "img10.png", Entry.file "Img1.png"] =
        [Entry.file "Img1.png", Entry.file "img2.png", Entry.file "img10.png"] := rfl
    simp only [load, Except.map]
    rw [load_rec, hs]
    simp [load_entries]

/-- Witness for C7 on a concrete readable root with two files. -/
theorem directory_entries_natural_sorted_witness :
    (load ["r"] (RootAccess.readable [Entry.file "b", Entry.file "a"]) [] =
      .ok (⟨["r"], [FsNode.File ["r", "a"], FsNode.File ["r", "b"]]⟩,
           ⟨["r"], [FsNode.File ["r", "a"], FsNode.File ["r", "b"]]⟩)) ∧
    NodeSorted (FsNode.Directory
      (⟨["r"], [FsNode.File ["r", "a"], FsNode.File ["r", "b"]]⟩ : Directory).this
      (⟨["r"], [FsNode.File ["r", "a"], FsNode.File ["r", "b"]]⟩ : Directory).entries) := by
  have h : load ["r"] (RootAccess.readable [Entry.file "b", Entry.file "a"]) [] =
      .ok (⟨["r"], [FsNode.File ["r", "a"], FsNode.File ["r", "b"]]⟩,
           ⟨["r"], [FsNode.File ["r", "a"], FsNode.File ["r", "b"]]⟩) := by
    have hs : sortChildren [Entry.file "b", Entry.file "a"] =
        [Entry.file "a", Entry.file "b"] := rfl
    simp only [load]
    rw [load_rec, hs]
    simp [load_entries]
  exact ⟨h, directory_entries_natural_sorted.1 ["r"] _ [] _ _ h⟩

/-! ## Record identity in the store -/

theorem tagsBeq_refl (cf : String → String) : ∀ ts, tagsBeq cf ts ts = true := by
  intro ts
  induction ts with
  | nil => rfl
  | cons a as ih => simp [tagsBeq, Tag.beq, ih]

theorem tagsBeq_symm (cf : String → String) :
    ∀ {ts us}, tagsBeq cf ts us = true → tagsBeq cf us ts = true := by
  intro ts
  induction ts with
  | nil => intro us h; cases us with
    | nil => exact h
    | cons b bs => simp [tagsBeq] at h
  | cons a as ih =>
    intro us h
    cases us with
    | nil => simp [tagsBeq] at h
    | cons b bs =>
      simp only [tagsBeq, Bool.and_eq_true] at h ⊢
      refine ⟨?_, ih h.2⟩
      have : cf a.value = cf b.value := eq_of_beq h.1
      simp [Tag.beq, this]

theorem tagsBeq_trans (cf : String → String) :
    ∀ {ts us vs}, tagsBeq cf ts us = true → tagsBeq cf us vs = true →
    tagsBeq cf ts vs = true := by
  intro ts
  induction ts with
  | nil => intro us vs h1 h2; cases us with
    | nil => exact h2
    | cons b bs => simp [tagsBeq] at h1
  | cons a as ih =>
    intro us vs h1 h2
    cases us with
    | nil => simp [tagsBeq] at h1
    | cons b bs =>
      cases vs with
      | nil => simp [tagsBeq] at h2
      | cons c cs =>
        simp only [tagsBeq, Bool.and_eq_true] at h1 h2 ⊢
        refine ⟨?_, ih h1.2 h2.2⟩
        have e1 : cf a.value = cf b.value := eq_of_beq h1.1
        have e2 : cf b.value = cf c.value := eq_of_beq h2.1
        simp [Tag.beq, e1, e2]

theorem fileInfoBeq_refl (cf : String → String) (f : FileInfo) :
    FileInfo.beq cf f f = true := by
  simp [FileInfo.beq, tagsBeq_refl]

theorem fileInfoBeq_symm {cf : String → String} {f g : FileInfo}
    (h : FileInfo.beq cf f g = true) : FileInfo.beq cf g f = true := by
  simp only [FileInfo.beq, Bool.and_eq_true, beq_iff_eq] at h ⊢
  exact ⟨⟨h.1.1.symm, h.1.2.symm⟩, tagsBeq_symm cf h.2⟩

theorem fileInfoBeq_trans {cf : String → String} {f g k : FileInfo}
    (h1 : FileInfo.beq cf f g = true) (h2 : FileInfo.beq cf g k = true) :
    FileInfo.beq cf f k = true := by
  simp only [FileInfo.beq, Bool.and_eq_true, beq_iff_eq] at h1 h2 ⊢
  exact ⟨⟨h1.1.1.trans h2.1.1, h1.1.2.trans h2.1.2⟩, tagsBeq_trans cf h1.2 h2.2⟩

theorem countP_beq_eq_one {cf : String → String} {f : FileInfo} :
    ∀ {infos : List FileInfo},
    infos.Pairwise (fun a b => FileInfo.beq cf a b = false) →
    infos.any (fun g => FileInfo.beq cf g f) = true →
    infos.countP (fun g => FileInfo.beq cf g f) = 1 := by
  intro infos
  induction infos with
  | nil => intro _ h; simp at h
  | cons g rest ih =>
    intro hp hany
    by_cases hg : FileInfo.beq cf g f = true
    · rw [List.countP_cons]
      have hzero : rest.countP (fun x => FileInfo.beq cf x f) = 0 := by
        rw [List.countP_eq_zero]
        intro x hx hxf
        have hgx : FileInfo.beq cf g x = true :=
          fileInfoBeq_trans hg (fileInfoBeq_symm hxf)
        have hfalse := (List.pairwise_cons.1 hp).1 x hx
        rw [hgx] at hfalse
        exact Bool.noConfusion hfalse
      simp [hzero, hg]
    · have hg2 : FileInfo.beq cf g f = false := Bool.eq_false_iff.2 hg
      rw [List.countP_cons]
      have hrest : (rest.any fun g => FileInfo.beq cf g f) = true := by
        simp only [List.any_cons, hg2, Bool.false_or] at hany
        exact hany
      rw [ih (List.pairwise_cons.1 hp).2 hrest]
      simp [hg2]

/-- C2 (amended): the identity actually governing the store is the full
tuple (path, deletion flag, tags with case-insensitive tag equality), not
the path.  On a store without tuple-duplicates, `add` leaves exactly one
record tuple-equal to the added one and preserves tuple-distinctness; a
tuple-equal later `add` is a no-op that keeps the original record.
Records sharing a path but differing in flag or tags coexist. -/
theorem add_tuple_identity (cf : String → String) (infos : List FileInfo) (f : FileInfo)
    (hdist : infos.Pairwise (fun a b => FileInfo.beq cf a b = false)) :
    (insertInfo cf infos f).countP (fun g => FileInfo.beq cf g f) = 1 ∧
    (insertInfo cf infos f).Pairwise (fun a b => FileInfo.beq cf a b = false) := by
  unfold insertInfo
  by_cases hany : infos.any (fun g => FileInfo.beq cf g f) = true
  · rw [if_pos hany]
    exact ⟨countP_beq_eq_one hdist hany, hdist⟩
  · rw [if_neg (by simpa using hany)]
    have hall : ∀ x ∈ infos, FileInfo.beq cf x f = false := fun x hx =>
      Bool.eq_false_iff.2 (fun h => hany (List.any_eq_true.2 ⟨x, hx, h⟩))
    constructor
    · rw [List.countP_append]
      have h0 : infos.countP (fun g => FileInfo.beq cf g f) = 0 := by
        rw [List.countP_eq_zero]
        intro x hx hxf
        rw [hall x hx] at hxf
        exact Bool.noConfusion hxf
      have h1 : List.countP (fun g => FileInfo.beq cf g f) [f] = 1 := by
        simp [List.countP_cons, fileInfoBeq_refl]
      omega
    · rw [List.pairwise_append]
      refine ⟨hdist, List.pairwise_singleton .., ?_⟩
      intro a ha b hb
      rw [List.mem_singleton] at hb
      subst hb
      exact hall a ha

/-- C2 counterexample: after adding a record for path `P` with no flags
and then a second record for the same path with the deletion flag set,
the store holds two records whose path is `P` — the later `add` does not
replace the earlier record. -/
theorem duplicate_path_records :
    ((State.add asciiFold
        { root := ⟨["r"], []⟩, flat := ⟨["r"], []⟩, infos := [] }
        { path := ["P"], delete := none, tags := [] }).bind
      (fun s => State.add asciiFold s { path := ["P"], delete := some true, tags := [] })) =
      .ok { root := ⟨["r"], []⟩, flat := ⟨["r"], []⟩,
            infos := [{ path := ["P"], delete := none, tags := [] },
                      { path := ["P"], delete := some true, tags := [] }] } ∧
    ([{ path := ["P"], delete := none, tags := [] },
      { path := ["P"], delete := some true, tags := [] }] : List FileInfo).countP
      (fun g => g.path == ["P"]) = 2 :=
  ⟨rfl, rfl⟩

/-- Witness for the amended C2 on a store holding one record for a
different path. -/
theorem add_tuple_identity_witness :
    ([{ path := ["Q"], delete := none, tags := [] }] : List FileInfo).Pairwise
      (fun a b => FileInfo.beq asciiFold a b = false) ∧
    ((insertInfo asciiFold [{ path := ["Q"], delete := none, tags := [] }]
        { path := ["P"], delete := none, tags := [] }).countP
        (fun g => FileInfo.beq asciiFold g { path := ["P"], delete := none, tags := [] }) = 1 ∧
     (insertInfo asciiFold [{ path := ["Q"], delete := none, tags := [] }]
        { path := ["P"], delete := none, tags := [] }).Pairwise
        (fun a b => FileInfo.beq asciiFold a b = false)) :=
  ⟨List.pairwise_singleton .., add_tuple_identity asciiFold _ _ (List.pairwise_singleton ..)⟩

/-! ## Tag aggregation -/

theorem dedupKeepFirst_sublist (eq : Tag → Tag → Bool) :
    ∀ l, (dedupKeepFirst eq l).Sublist l := by
  intro l
  induction l using dedupKeepFirst.induct eq with
  | case1 => simp [dedupKeepFirst]
  | case2 a => simp [dedupKeepFirst]
  | case3 a b rest heq ih =>
    rw [dedupKeepFirst, if_pos heq]
    exact ih.trans ((List.sublist_cons_self b rest).cons₂ a)
  | case4 a b rest heq ih =>
    rw [dedupKeepFirst, if_neg heq]
    exact ih.cons₂ a

theorem dedupKeepFirst_head (eq : Tag → Tag → Bool) :
    ∀ l, (dedupKeepFirst eq l).head? = l.head? := by
  intro l
  induction l using dedupKeepFirst.induct eq with
  | case1 => simp [dedupKeepFirst]
  | case2 a => simp [dedupKeepFirst]
  | case3 a b rest heq ih =>
    rw [dedupKeepFirst, if_pos heq, ih]
    rfl
  | case4 a b rest heq ih =>
    rw [dedupKeepFirst, if_neg heq]
    rfl

theorem dedupKeepFirst_cover (eq : Tag → Tag → Bool) :
    ∀ l, ∀ x ∈ l, ∃ y ∈ dedupKeepFirst eq l, (eq y x = true ∨ y = x) := by
  intro l
  induction l using dedupKeepFirst.induct eq with
  | case1 => simp
  | case2 a =>
    intro x hx
    rw [List.mem_singleton] at hx
    subst hx
    exact ⟨x, by simp [dedupKeepFirst], Or.inr rfl⟩
  | case3 a b rest heq ih =>
    intro x hx
    rw [dedupKeepFirst, if_pos heq]
    rcases List.mem_cons.1 hx with rfl | hx2
    · exact ih x (List.mem_cons_self ..)
    · rcases List.mem_cons.1 hx2 with rfl | hx3
      · refine ⟨a, ?_, Or.inl heq⟩
        apply List.mem_of_mem_head?
        rw [dedupKeepFirst_head]
        rfl
      · exact ih x (List.mem_cons_of_mem a hx3)
  | case4 a b rest heq ih =>
    intro x hx
    rw [dedupKeepFirst, if_neg heq]
    rcases List.mem_cons.1 hx with rfl | hx2
    · exact ⟨x, List.mem_cons_self .., Or.inr rfl⟩
    · obtain ⟨y, hy, hyx⟩ := ih x hx2
      exact ⟨y, List.mem_cons_of_mem a hy, hyx⟩

theorem dedupKeepFirst_chain (eq : Tag → Tag → Bool) :
    ∀ l, List.Chain' (fun a b => eq a b = false) (dedupKeepFirst eq l) := by
  intro l
  induction l using dedupKeepFirst.induct eq with
  | case1 => simp [dedupKeepFirst]
  | case2 a => simp [dedupKeepFirst]
  | case3 a b rest heq ih =>
    rw [dedupKeepFirst, if_pos heq]
    exact ih
  | case4 a b rest heq ih =>
    rw [dedupKeepFirst, if_neg heq]
    rw [List.chain'_cons']
    refine ⟨?_, ih⟩
    intro y hy
    rw [dedupKeepFirst_head] at hy
    rw [List.head?_cons, Option.mem_some_iff] at hy
    subst hy
    exact Bool.eq_false_iff.2 heq

theorem chain_lt_of_sorted_ne (cf : String → String) :
    ∀ l, List.Sorted (foldLe cf) l →
    List.Chain' (fun a b => Tag.beq cf a b = false) l →
    List.Chain' (foldLt cf) l := by
  intro l
  induction l with
  | nil => intro _ _; simp
  | cons a rest ih =>
    intro hs hc
    rw [List.chain'_cons']
    refine ⟨?_, ih hs.of_cons (List.chain'_cons'.1 hc).2⟩
    intro y hy
    have hle : foldLe cf a y := (List.pairwise_cons.1 hs).1 y (List.mem_of_mem_head? hy)
    have hne := (List.chain'_cons'.1 hc).1 y hy
    have hv : cf a.value ≠ cf y.value := by
      intro he
      simp [Tag.beq, he] at hne
    exact lt_of_le_of_ne hle hv

/-- C9: `State::tags` yields the union of the tags of all stored records,
sorted strictly in the case-folded order (so case-fold duplicates are
removed), and on a `State` whose record collection is empty it yields the
empty sequence.  The model is a pure function of the store, so repeated
calls on an unchanged `State` yield the same sequence definitionally. -/
theorem tags_sorted_dedup_union (cf : String → String) (s : State) :
    List.Sorted (foldLt cf) (State.tags cf s) ∧
    (∀ t : Tag, (∃ u ∈ State.tags cf s, cf u.value = cf t.value) ↔
      (∃ f ∈ s.infos, ∃ u ∈ f.tags, cf u.value = cf t.value)) ∧
    (∀ root flat, State.tags cf ⟨root, flat, []⟩ = []) := by
  have hperm := List.perm_insertionSort (foldLe cf) (s.infos.flatMap (fun f => f.tags))
  have hsub := dedupKeepFirst_sublist (Tag.beq cf)
    (List.insertionSort (foldLe cf) (s.infos.flatMap (fun f => f.tags)))
  refine ⟨?_, fun t => ⟨?_, ?_⟩, fun root flat => ?_⟩
  · have hchain : List.Chain' (foldLt cf) (State.tags cf s) := by
      apply chain_lt_of_sorted_ne
      · exact (List.sorted_insertionSort (foldLe cf) _).sublist hsub
      · exact dedupKeepFirst_chain (Tag.beq cf) _
    exact List.chain'_iff_pairwise.1 hchain
  · rintro ⟨u, hu, huv⟩
    have hu2 : u ∈ s.infos.flatMap (fun f => f.tags) := hperm.subset (hsub.subset hu)
    obtain ⟨f, hf, hut⟩ := List.mem_flatMap.1 hu2
    exact ⟨f, hf, u, hut, huv⟩
  · rintro ⟨f, hf, u, hut, huv⟩
    have hu2 : u ∈ List.insertionSort (foldLe cf) (s.infos.flatMap (fun g => g.tags)) :=
      hperm.symm.subset (List.mem_flatMap.2 ⟨f, hf, hut⟩)
    obtain ⟨y, hy, hyu⟩ := dedupKeepFirst_cover (Tag.beq cf) _ u hu2
    refine ⟨y, hy, ?_⟩
    rcases hyu with hyu | rfl
    · exact (eq_of_beq hyu).trans huv
    · exact huv
  · simp [State.tags, dedupKeepFirst, List.insertionSort]
